import Mathlib

/-!
Shallow embedding of the duolingo_checker crate (src/lib.rs and
src/main.rs). Strings are modelled as `List Char`; the input text is
valid UTF-8 and both delimiters (TAB 0x09 and the unit separator 0x1F)
are ASCII, so byte-level nom parsing over `&[u8]` coincides with
character-level parsing and `map_res(..., from_utf8)` never fails.
Fallible Rust code returning `Result<_, String>` is modelled with
`Option` (`none` is the error case; the crate only ever inspects
success vs failure of the message it builds).
-/

/-- DuolingoWord from src/lib.rs: the word, its part of speech, and the
free-text description of when it was last studied. -/
structure DuolingoWord where
  word : List Char
  word_class : List Char
  last_studied : List Char
deriving DecidableEq, Repr

/-- The nom combinator take_until_and_consume_s applied to the single
TAB character, composed with from_utf8: consume the text strictly before
the first TAB together with that TAB, returning (text, remainder).
When no TAB occurs nom reports Incomplete, which get_words turns into an
error; that failure is `none` here. -/
def take_until_and_consume_tab : List Char → Option (List Char × List Char)
  | [] => none
  | c :: rest =>
    if c = '\t' then some ([], rest)
    else
      match take_until_and_consume_tab rest with
      | none => none
      | some (pre, post) => some (c :: pre, post)

/-- The nom do_parse chain inside get_words: three TAB-terminated
sections give the word, the word class and the last-studied text; any
input remaining after the third TAB is ignored. -/
def parseLine (line : List Char) : Option DuolingoWord :=
  match take_until_and_consume_tab line with
  | none => none
  | some (word, r1) =>
    match take_until_and_consume_tab r1 with
    | none => none
    | some (word_class, r2) =>
      match take_until_and_consume_tab r2 with
      | none => none
      | some (last_studied, _) => some ⟨word, word_class, last_studied⟩

/-- Rust str::split on a single character: splits at every occurrence,
keeping empty segments; a string with no occurrence yields the
one-element list of the whole string. -/
def splitOnChar (sep : Char) : List Char → List (List Char)
  | [] => [[]]
  | c :: rest =>
    if c = sep then [] :: splitOnChar sep rest
    else
      match splitOnChar sep rest with
      | [] => [[c]]
      | p :: ps => (c :: p) :: ps

/-- Joining a list of segments with a single separator character
interleaved; the inverse direction of `splitOnChar`. -/
def joinSep (sep : Char) : List (List Char) → List Char
  | [] => []
  | [x] => x
  | x :: y :: ys => x ++ sep :: joinSep sep (y :: ys)

/-- Rust str::lines drops one trailing empty piece when the text ends
with a newline (split_terminator behaviour). -/
def dropLastEmpty (ls : List (List Char)) : List (List Char) :=
  if ls.getLast? = some [] then ls.dropLast else ls

/-- Rust str::lines strips a single carriage return left at the end of
a piece by a CRLF line ending. -/
def stripTrailingCR (l : List Char) : List Char :=
  if l.getLast? = some '\r' then l.dropLast else l

/-- Rust str::lines: split on LF, drop the optional final empty piece,
strip a trailing CR from each line. -/
def rustLines (s : List Char) : List (List Char) :=
  (dropLastEmpty (splitOnChar '\n' s)).map stripTrailingCR

/-- The loop body of get_words over the list of lines: parse each line
in order, pushing the records; the first failing line aborts the whole
batch with an error. -/
def get_words_aux : List (List Char) → Option (List DuolingoWord)
  | [] => some []
  | l :: ls =>
    match parseLine l with
    | none => none
    | some w =>
      match get_words_aux ls with
      | none => none
      | some ws => some (w :: ws)

/-- get_words from src/lib.rs: run the line parser over every line of
the content, fail-fast. -/
def get_words (content : List Char) : Option (List DuolingoWord) :=
  get_words_aux (rustLines content)

/-- to_fields from src/lib.rs: split an Anki note on the unit separator
0x1F. -/
def to_fields (fields : List Char) : List (List Char) :=
  splitOnChar '\x1f' fields

/-- get_words_from_fields from src/lib.rs: to_fields applied to every
raw note string. -/
def get_words_from_fields (fields : List (List Char)) : List (List (List Char)) :=
  fields.map to_fields

/-- One HashSet::insert step: membership-only semantics, so inserting a
token already present leaves the set unchanged. The HashSet is modelled
as the list of its distinct elements. -/
def hashset_insert (map : List (List Char)) (field : List Char) : List (List Char) :=
  if field ∈ map then map else field :: map

/-- build_word_map from src/lib.rs: insert every field of every field
list into one set. -/
def build_word_map (words : List (List (List Char))) : List (List Char) :=
  words.foldl (fun map fields => fields.foldl hashset_insert map) []

/-- The Display impl for DuolingoWord: the report line for one word. -/
def display (w : DuolingoWord) : List Char :=
  "Word: ".data ++ w.word ++ "\tType: ".data ++ w.word_class
    ++ "\tLast Studied: ".data ++ w.last_studied

/-- The report loop of main in src/main.rs, with printing replaced by
accumulation: collect each word absent from the word map, counting as
the source does with num += 1. -/
def diff (words : List DuolingoWord) (word_map : List (List Char)) :
    List DuolingoWord × Nat :=
  words.foldl
    (fun acc word =>
      if word.word ∈ word_map then acc else (acc.1 ++ [word], acc.2 + 1))
    ([], 0)

/-- The lines main prints: one Display line per unmatched word, then a
final line holding the decimal count. -/
def main_output (words : List DuolingoWord) (word_map : List (List Char)) :
    List (List Char) :=
  (diff words word_map).1.map display ++ [(Nat.repr (diff words word_map).2).data]

/-- The doc-test content of get_words (scenario 1 of the spec). -/
def scenario1 : List Char :=
  "Glas\tNoun\t33 minutes ago\t\nMann\tNoun\t3 months ago\t".data

/-- The first record of scenario 1. -/
def glasWord : DuolingoWord := ⟨"Glas".data, "Noun".data, "33 minutes ago".data⟩

/-- The second record of scenario 1. -/
def mannWord : DuolingoWord := ⟨"Mann".data, "Noun".data, "3 months ago".data⟩

/-- The raw Anki note strings of scenario 2 of the spec. -/
def scenario2 : List (List Char) :=
  ["a\x1fb\x1fc".data, "d\x1fe".data, "a".data]

theorem splitOnChar_ne_nil (sep : Char) (s : List Char) : splitOnChar sep s ≠ [] := by
  induction s with
  | nil => simp [splitOnChar]
  | cons c rest ih =>
    by_cases hc : c = sep
    · simp [splitOnChar, hc]
    · cases h : splitOnChar sep rest with
      | nil => simp [splitOnChar, hc, h]
      | cons p ps => simp [splitOnChar, hc, h]

theorem joinSep_cons_head (sep c : Char) (p : List Char) (ps : List (List Char)) :
    joinSep sep ((c :: p) :: ps) = c :: joinSep sep (p :: ps) := by
  cases ps <;> rfl

theorem joinSep_splitOnChar (sep : Char) (s : List Char) :
    joinSep sep (splitOnChar sep s) = s := by
  induction s with
  | nil => rfl
  | cons c rest ih =>
    by_cases hc : c = sep
    · subst hc
      cases h : splitOnChar c rest with
      | nil => exact absurd h (splitOnChar_ne_nil c rest)
      | cons p ps =>
        rw [h] at ih
        simp only [splitOnChar, if_pos rfl, h]
        show c :: joinSep c (p :: ps) = c :: rest
        rw [ih]
    · cases h : splitOnChar sep rest with
      | nil => exact absurd h (splitOnChar_ne_nil sep rest)
      | cons p ps =>
        rw [h] at ih
        simp only [splitOnChar, if_neg hc, h]
        rw [joinSep_cons_head, ih]

theorem splitOnChar_not_mem (sep : Char) (s : List Char) :
    ∀ l ∈ splitOnChar sep s, sep ∉ l := by
  induction s with
  | nil =>
    intro l hl
    simp [splitOnChar] at hl
    simp [hl]
  | cons c rest ih =>
    intro l hl
    by_cases hc : c = sep
    · simp only [splitOnChar, if_pos hc, List.mem_cons] at hl
      cases hl with
      | inl h => simp [h]
      | inr h => exact ih l h
    · cases h : splitOnChar sep rest with
      | nil => exact absurd h (splitOnChar_ne_nil sep rest)
      | cons p ps =>
        simp only [splitOnChar, if_neg hc, h, List.mem_cons] at hl
        cases hl with
        | inl hx =>
          subst hx
          intro hmem
          rcases List.mem_cons.mp hmem with h1 | h1
          · exact hc h1.symm
          · exact ih p (by rw [h]; exact List.mem_cons_self p ps) h1
        | inr hx => exact ih l (by rw [h]; exact List.mem_cons_of_mem p hx)

theorem splitOnChar_of_not_mem (sep : Char) (s : List Char) (h : sep ∉ s) :
    splitOnChar sep s = [s] := by
  induction s with
  | nil => rfl
  | cons c rest ih =>
    rw [List.mem_cons] at h
    push_neg at h
    obtain ⟨h1, h2⟩ := h
    have hrest := ih h2
    have hcs : ¬ c = sep := fun hcs => h1 hcs.symm
    simp [splitOnChar, hcs, hrest]

theorem splitOnChar_append_cons (sep : Char) (a b : List Char) (h : sep ∉ a) :
    splitOnChar sep (a ++ sep :: b) = a :: splitOnChar sep b := by
  induction a with
  | nil => simp [splitOnChar]
  | cons c rest ih =>
    rw [List.mem_cons] at h
    push_neg at h
    obtain ⟨h1, h2⟩ := h
    have hrest := ih h2
    have hcs : ¬ c = sep := fun hcs => h1 hcs.symm
    simp [splitOnChar, hcs, hrest]

theorem take_until_eq_some (l pre post : List Char)
    (h : take_until_and_consume_tab l = some (pre, post)) :
    l = pre ++ '\t' :: post ∧ '\t' ∉ pre := by
  induction l generalizing pre post with
  | nil => simp [take_until_and_consume_tab] at h
  | cons c rest ih =>
    by_cases hc : c = '\t'
    · subst hc
      simp only [take_until_and_consume_tab, if_pos rfl, Option.some.injEq,
        Prod.mk.injEq] at h
      obtain ⟨rfl, rfl⟩ := h
      simp
    · cases hr : take_until_and_consume_tab rest with
      | none => simp [take_until_and_consume_tab, hc, hr] at h
      | some pr =>
        obtain ⟨p, r⟩ := pr
        simp only [take_until_and_consume_tab, if_neg hc, hr, Option.some.injEq,
          Prod.mk.injEq] at h
        obtain ⟨rfl, rfl⟩ := h
        obtain ⟨ih1, ih2⟩ := ih p r hr
        refine ⟨by rw [ih1]; rfl, ?_⟩
        intro hmem
        rcases List.mem_cons.mp hmem with h1 | h1
        · exact hc h1.symm
        · exact ih2 h1

theorem count_tab_of_take (l pre post : List Char)
    (h : take_until_and_consume_tab l = some (pre, post)) :
    l.count '\t' = post.count '\t' + 1 := by
  obtain ⟨h1, h2⟩ := take_until_eq_some l pre post h
  subst h1
  rw [List.count_append, List.count_cons_self, List.count_eq_zero.mpr h2]
  omega

theorem parseLine_none_of_count (l : List Char) (h : l.count '\t' < 3) :
    parseLine l = none := by
  unfold parseLine
  split
  · rfl
  next p1 r1 h1 =>
    split
    · rfl
    next p2 r2 h2 =>
      split
      · rfl
      next p3 r3 h3 =>
        exfalso
        have hc1 := count_tab_of_take l p1 r1 h1
        have hc2 := count_tab_of_take r1 p2 r2 h2
        have hc3 := count_tab_of_take r2 p3 r3 h3
        omega

theorem parseLine_fields_tab_free (l : List Char) (w : DuolingoWord)
    (h : parseLine l = some w) :
    '\t' ∉ w.word ∧ '\t' ∉ w.word_class ∧ '\t' ∉ w.last_studied := by
  unfold parseLine at h
  split at h
  · exact Option.noConfusion h
  next p1 r1 h1 =>
    split at h
    · exact Option.noConfusion h
    next p2 r2 h2 =>
      split at h
      · exact Option.noConfusion h
      next p3 r3 h3 =>
        simp only [Option.some.injEq] at h
        subst h
        exact ⟨(take_until_eq_some l p1 r1 h1).2, (take_until_eq_some r1 p2 r2 h2).2,
          (take_until_eq_some r2 p3 r3 h3).2⟩

theorem get_words_aux_none (ls : List (List Char)) (l : List Char)
    (hl : l ∈ ls) (hp : parseLine l = none) : get_words_aux ls = none := by
  induction ls with
  | nil => simp at hl
  | cons a as ih =>
    rw [List.mem_cons] at hl
    cases hl with
    | inl h =>
      subst h
      simp [get_words_aux, hp]
    | inr h =>
      cases hpa : parseLine a with
      | none => simp [get_words_aux, hpa]
      | some w => simp [get_words_aux, hpa, ih h]

theorem get_words_aux_some (ls : List (List Char)) (ws : List DuolingoWord)
    (h : get_words_aux ls = some ws) :
    ws.length = ls.length ∧
      ∀ i (hi : i < ls.length) (hw : i < ws.length),
        parseLine (ls.get ⟨i, hi⟩) = some (ws.get ⟨i, hw⟩) := by
  induction ls generalizing ws with
  | nil =>
    simp only [get_words_aux, Option.some.injEq] at h
    subst h
    exact ⟨rfl, fun i hi _ => absurd hi (by simp)⟩
  | cons a as ih =>
    unfold get_words_aux at h
    cases hpa : parseLine a with
    | none => rw [hpa] at h; exact Option.noConfusion h
    | some w =>
      rw [hpa] at h
      cases haux : get_words_aux as with
      | none => rw [haux] at h; exact Option.noConfusion h
      | some ws' =>
        rw [haux] at h
        simp only [Option.some.injEq] at h
        subst h
        obtain ⟨ihlen, ihget⟩ := ih ws' haux
        refine ⟨by simp [ihlen], fun i hi hw => ?_⟩
        cases i with
        | zero => simpa using hpa
        | succ j =>
          exact ihget j (by simp only [List.length_cons] at hi; omega)
            (by simp only [List.length_cons] at hw; omega)

theorem get_words_aux_mem_source (ls : List (List Char)) (ws : List DuolingoWord)
    (h : get_words_aux ls = some ws) (w : DuolingoWord) (hw : w ∈ ws) :
    ∃ l, l ∈ ls ∧ parseLine l = some w := by
  induction ls generalizing ws with
  | nil =>
    simp only [get_words_aux, Option.some.injEq] at h
    subst h
    simp at hw
  | cons a as ih =>
    unfold get_words_aux at h
    cases hpa : parseLine a with
    | none => rw [hpa] at h; exact Option.noConfusion h
    | some v =>
      rw [hpa] at h
      cases haux : get_words_aux as with
      | none => rw [haux] at h; exact Option.noConfusion h
      | some ws' =>
        rw [haux] at h
        simp only [Option.some.injEq] at h
        subst h
        rw [List.mem_cons] at hw
        cases hw with
        | inl hx =>
          subst hx
          exact ⟨a, List.mem_cons_self a as, hpa⟩
        | inr hx =>
          obtain ⟨l, hl, hpl⟩ := ih ws' haux hx
          exact ⟨l, List.mem_cons_of_mem a hl, hpl⟩

theorem dropLastEmpty_decomp (ls : List (List Char)) :
    ls = dropLastEmpty ls ∨ ls = dropLastEmpty ls ++ [[]] := by
  unfold dropLastEmpty
  by_cases h : ls.getLast? = some []
  · right
    rw [if_pos h]
    exact (List.dropLast_append_getLast? _ h).symm
  · left
    rw [if_neg h]

theorem diff_foldl (words : List DuolingoWord) (word_map : List (List Char))
    (acc : List DuolingoWord × Nat) :
    words.foldl
        (fun acc word =>
          if word.word ∈ word_map then acc else (acc.1 ++ [word], acc.2 + 1)) acc
      = (acc.1 ++ words.filter (fun w => !decide (w.word ∈ word_map)),
         acc.2 + (words.filter (fun w => !decide (w.word ∈ word_map))).length) := by
  induction words generalizing acc with
  | nil => simp
  | cons w ws ih =>
    by_cases hw : w.word ∈ word_map
    · rw [List.foldl_cons, if_pos hw, ih]
      simp [List.filter_cons, hw]
    · rw [List.foldl_cons, if_neg hw, ih]
      have hb : (!decide (w.word ∈ word_map)) = true := by simp [hw]
      refine Prod.ext ?_ ?_
      · simp [List.filter_cons, hb, List.append_assoc]
      · simp only [List.filter_cons, hb, if_true, List.length_cons]
        omega

theorem diff_eq (words : List DuolingoWord) (word_map : List (List Char)) :
    diff words word_map
      = (words.filter (fun w => !decide (w.word ∈ word_map)),
         (words.filter (fun w => !decide (w.word ∈ word_map))).length) := by
  unfold diff
  rw [diff_foldl]
  simp

theorem mem_foldl_hashset_insert (fields : List (List Char))
    (acc : List (List Char)) (x : List Char) :
    x ∈ fields.foldl hashset_insert acc ↔ x ∈ acc ∨ x ∈ fields := by
  induction fields generalizing acc with
  | nil => simp
  | cons f fs ih =>
    rw [List.foldl_cons, ih]
    unfold hashset_insert
    by_cases hf : f ∈ acc
    · rw [if_pos hf]
      simp only [List.mem_cons]
      constructor
      · rintro (h | h)
        · exact Or.inl h
        · exact Or.inr (Or.inr h)
      · rintro (h | h | h)
        · exact Or.inl h
        · subst h; exact Or.inl hf
        · exact Or.inr h
    · rw [if_neg hf]
      simp only [List.mem_cons]
      tauto

theorem mem_build_word_map_aux (words : List (List (List Char)))
    (acc : List (List Char)) (x : List Char) :
    x ∈ words.foldl (fun map fields => fields.foldl hashset_insert map) acc
      ↔ x ∈ acc ∨ ∃ fs, fs ∈ words ∧ x ∈ fs := by
  induction words generalizing acc with
  | nil => simp
  | cons fs fss ih =>
    rw [List.foldl_cons, ih, mem_foldl_hashset_insert]
    simp only [List.mem_cons]
    constructor
    · rintro ((h | h) | ⟨g, hg, hx⟩)
      · exact Or.inl h
      · exact Or.inr ⟨fs, Or.inl rfl, h⟩
      · exact Or.inr ⟨g, Or.inr hg, hx⟩
    · rintro (h | ⟨g, (hg | hg), hx⟩)
      · exact Or.inl (Or.inl h)
      · subst hg; exact Or.inl (Or.inr hx)
      · exact Or.inr ⟨g, hg, hx⟩

theorem mem_build_word_map (words : List (List (List Char))) (x : List Char) :
    x ∈ build_word_map words ↔ ∃ fs, fs ∈ words ∧ x ∈ fs := by
  unfold build_word_map
  rw [mem_build_word_map_aux]
  simp

theorem filter_nonempty_pieces (c : List Char) (ws : List DuolingoWord)
    (h : get_words c = some ws) :
    ((splitOnChar '\n' c).filter (fun l => decide (l ≠ []))).length
      = (rustLines c).length := by
  have hne : ∀ l ∈ rustLines c, l ≠ [] := by
    intro l hl hnil
    subst hnil
    have hnone : get_words c = none := by
      unfold get_words
      exact get_words_aux_none (rustLines c) [] hl rfl
    rw [h] at hnone
    exact Option.noConfusion hnone
  have hpieces : ∀ p ∈ dropLastEmpty (splitOnChar '\n' c), p ≠ [] := by
    intro p hp hnil
    subst hnil
    have hmem : stripTrailingCR [] ∈ rustLines c := List.mem_map_of_mem _ hp
    exact hne [] hmem rfl
  have hfilter : (dropLastEmpty (splitOnChar '\n' c)).filter (fun l => decide (l ≠ []))
      = dropLastEmpty (splitOnChar '\n' c) :=
    List.filter_eq_self.mpr (fun a ha => by simpa using hpieces a ha)
  have hlen2 : (rustLines c).length = (dropLastEmpty (splitOnChar '\n' c)).length := by
    unfold rustLines
    rw [List.length_map]
  rcases dropLastEmpty_decomp (splitOnChar '\n' c) with hd | hd
  · rw [hlen2, ← hfilter]
    conv_lhs => rw [hd]
  · rw [hlen2, ← hfilter]
    conv_lhs => rw [hd]
    rw [List.filter_append]
    simp

/-- C1: on every content that get_words accepts, the number of records
equals the number of non-empty lines of the content and the i-th record
is parsed from the i-th line; on the scenario-1 content the result is
exactly the Glas record followed by the Mann record. -/
theorem get_words_count_and_order :
    (∀ (c : List Char) (ws : List DuolingoWord), get_words c = some ws →
      ws.length = ((splitOnChar '\n' c).filter (fun l => decide (l ≠ []))).length ∧
      ∀ i (hi : i < (rustLines c).length) (hw : i < ws.length),
        parseLine ((rustLines c).get ⟨i, hi⟩) = some (ws.get ⟨i, hw⟩)) ∧
    get_words scenario1 = some [glasWord, mannWord] := by
  refine ⟨fun c ws h => ?_, by decide⟩
  have haux : get_words_aux (rustLines c) = some ws := h
  obtain ⟨hlen, hget⟩ := get_words_aux_some (rustLines c) ws haux
  exact ⟨by rw [hlen, filter_nonempty_pieces c ws h], hget⟩

/-- C1 witness: the theorem applied to the scenario-1 content. -/
theorem get_words_count_and_order_witness :
    ([glasWord, mannWord] : List DuolingoWord).length
      = ((splitOnChar '\n' scenario1).filter (fun l => decide (l ≠ []))).length :=
  (get_words_count_and_order.1 scenario1 [glasWord, mannWord] (by decide)).1

/-- C2: whenever some line of the content has fewer than three TAB
characters (so fewer than three TAB-delimited segments), get_words
rejects the whole content with an error and returns no records, even
when earlier lines are valid: the boundary content whose second line has
only two TABs is rejected outright. -/
theorem get_words_fail_fast :
    (∀ c : List Char, (∃ l ∈ rustLines c, l.count '\t' < 3) → get_words c = none) ∧
    get_words "Glas\tNoun\t33 minutes ago\t\na\tb\t".data = none := by
  refine ⟨fun c h => ?_, by decide⟩
  obtain ⟨l, hl, hcount⟩ := h
  show get_words_aux (rustLines c) = none
  exact get_words_aux_none (rustLines c) l hl (parseLine_none_of_count l hcount)

/-- C2 witness: the theorem applied to the boundary content, whose
second line carries only two TABs. -/
theorem get_words_fail_fast_witness :
    get_words "Glas\tNoun\t33 minutes ago\t\na\tb\t".data = none :=
  get_words_fail_fast.1 "Glas\tNoun\t33 minutes ago\t\na\tb\t".data
    ⟨"a\tb\t".data, by decide, by decide⟩

/-- C3: the report loop of main keeps exactly the records whose word is
absent from the word map, in input order and without deduplication, and
its count is the number of kept records; scenario 3 keeps exactly the
Glas record with count 1. -/
theorem diff_reports_unknown :
    (∀ (words : List DuolingoWord) (word_map : List (List Char)),
      (diff words word_map).1 = words.filter (fun w => !decide (w.word ∈ word_map)) ∧
      (diff words word_map).2
        = (words.filter (fun w => !decide (w.word ∈ word_map))).length) ∧
    diff [glasWord, mannWord] ["Mann".data] = ([glasWord], 1) := by
  refine ⟨fun words word_map => ?_, by decide⟩
  rw [diff_eq]
  exact ⟨rfl, rfl⟩

/-- C4: to_fields splits on every occurrence of the unit separator 0x1F
and preserves empty segments: joining its result with the separator
gives the input back, no returned segment contains the separator, a
separator-free string yields the one-element list of the whole string,
and the two concrete examples hold. -/
theorem to_fields_spec :
    (∀ s : List Char,
      joinSep '\x1f' (to_fields s) = s ∧
      (∀ l ∈ to_fields s, '\x1f' ∉ l) ∧
      ('\x1f' ∉ s → to_fields s = [s])) ∧
    to_fields "a\x1fb\x1fc".data = ["a".data, "b".data, "c".data] ∧
    to_fields "a".data = ["a".data] :=
  ⟨fun s => ⟨joinSep_splitOnChar '\x1f' s, splitOnChar_not_mem '\x1f' s,
    fun h => splitOnChar_of_not_mem '\x1f' s h⟩, by decide, by decide⟩

/-- C4 witness: the separator-free clause applied to the one-character
string. -/
theorem to_fields_spec_witness : to_fields ['a'] = [['a']] :=
  (to_fields_spec.1 ['a']).2.2 (by decide)

/-- C5: membership in the set built by build_word_map holds exactly when
the token occurs in some field list, so it is order-independent (stable
under permutation of the field lists) and deduplicating (inserting a
field list twice changes nothing); on the scenario-2 corpus the set is
exactly the five tokens a, b, c, d, e. -/
theorem build_word_map_spec :
    (∀ (words : List (List (List Char))) (x : List Char),
      x ∈ build_word_map words ↔ ∃ fs, fs ∈ words ∧ x ∈ fs) ∧
    (∀ (words words' : List (List (List Char))), words.Perm words' →
      ∀ x : List Char, (x ∈ build_word_map words ↔ x ∈ build_word_map words')) ∧
    (∀ (words : List (List (List Char))) (fs : List (List Char)) (x : List Char),
      x ∈ build_word_map (words ++ [fs, fs]) ↔ x ∈ build_word_map (words ++ [fs])) ∧
    (∀ x : List Char, x ∈ build_word_map (get_words_from_fields scenario2)
      ↔ x ∈ ["a".data, "b".data, "c".data, "d".data, "e".data]) ∧
    ("a".data ∈ build_word_map (get_words_from_fields scenario2) ∧
      "f".data ∉ build_word_map (get_words_from_fields scenario2)) := by
  refine ⟨mem_build_word_map, fun words words' hp x => ?_, fun words fs x => ?_,
    fun x => ?_, by decide, by decide⟩
  · rw [mem_build_word_map, mem_build_word_map]
    constructor
    · rintro ⟨fs, hfs, hx⟩
      exact ⟨fs, hp.mem_iff.mp hfs, hx⟩
    · rintro ⟨fs, hfs, hx⟩
      exact ⟨fs, hp.mem_iff.mpr hfs, hx⟩
  · rw [mem_build_word_map, mem_build_word_map]
    constructor
    · rintro ⟨g, hg, hx⟩
      rcases List.mem_append.mp hg with hg | hg
      · exact ⟨g, List.mem_append.mpr (Or.inl hg), hx⟩
      · have hgfs : g = fs := by simpa using hg
        subst hgfs
        exact ⟨g, List.mem_append.mpr (Or.inr (by simp)), hx⟩
    · rintro ⟨g, hg, hx⟩
      rcases List.mem_append.mp hg with hg | hg
      · exact ⟨g, List.mem_append.mpr (Or.inl hg), hx⟩
      · have hgfs : g = fs := by simpa using hg
        subst hgfs
        exact ⟨g, List.mem_append.mpr (Or.inr (by simp)), hx⟩
  · rw [mem_build_word_map]
    have hs : get_words_from_fields scenario2
        = [["a".data, "b".data, "c".data], ["d".data, "e".data], ["a".data]] := by
      decide
    rw [hs]
    simp only [List.mem_cons, List.mem_singleton, List.not_mem_nil, or_false]
    constructor
    · rintro ⟨fs, (rfl | rfl | rfl), hx⟩ <;> (simp_all; try tauto)
    · rintro (rfl | rfl | rfl | rfl | rfl)
      · exact ⟨["a".data, "b".data, "c".data], Or.inl rfl, by simp⟩
      · exact ⟨["a".data, "b".data, "c".data], Or.inl rfl, by simp⟩
      · exact ⟨["a".data, "b".data, "c".data], Or.inl rfl, by simp⟩
      · exact ⟨["d".data, "e".data], Or.inr (Or.inl rfl), by simp⟩
      · exact ⟨["d".data, "e".data], Or.inr (Or.inl rfl), by simp⟩

/-- C5 witness: permutation invariance applied to a concrete two-element
corpus and token. -/
theorem build_word_map_spec_witness :
    ("q".data ∈ build_word_map [["q".data], ["r".data]]
      ↔ "q".data ∈ build_word_map [["r".data], ["q".data]]) :=
  build_word_map_spec.2.1 [["q".data], ["r".data]] [["r".data], ["q".data]]
    (List.Perm.swap ["r".data] ["q".data] []) "q".data

/-- C6: the output of main is one line per unmatched record, rendered as
the literal text Word:, the word, a TAB, Type:, the word class, a TAB,
Last Studied: and the last-studied text, followed by a single final line
holding exactly the decimal numeral of the unmatched count. -/
theorem main_output_format (words : List DuolingoWord) (word_map : List (List Char)) :
    main_output words word_map
      = (words.filter (fun w => !decide (w.word ∈ word_map))).map
          (fun w => "Word: ".data ++ w.word ++ "\tType: ".data ++ w.word_class
            ++ "\tLast Studied: ".data ++ w.last_studied)
        ++ [(Nat.repr
              (words.filter (fun w => !decide (w.word ∈ word_map))).length).data] := by
  unfold main_output
  rw [diff_eq]
  rfl

/-- C8: when to_fields returns a single field, splitting that field
again returns the same singleton: to_fields is idempotent on
single-field results. -/
theorem to_fields_idem (s t : List Char) (h : to_fields s = [t]) :
    to_fields t = [t] := by
  have hmem : '\x1f' ∉ t :=
    splitOnChar_not_mem '\x1f' s t (by rw [show splitOnChar '\x1f' s = to_fields s from rfl, h]; exact List.mem_singleton_self t)
  exact splitOnChar_of_not_mem '\x1f' t hmem

/-- C8 witness: the theorem applied to the one-character string b. -/
theorem to_fields_idem_witness : to_fields ['b'] = [['b']] :=
  to_fields_idem ['b'] ['b'] (by decide)

/-- C9: to_fields never returns the empty list, the empty string yields
the singleton of the empty field, and joining the fields with the unit
separator reconstructs the input exactly. -/
theorem to_fields_nonempty_join :
    (∀ s : List Char, to_fields s ≠ [] ∧ joinSep '\x1f' (to_fields s) = s) ∧
    to_fields [] = [[]] :=
  ⟨fun s => ⟨splitOnChar_ne_nil '\x1f' s, joinSep_splitOnChar '\x1f' s⟩, rfl⟩

/-- C10: every record returned by a successful get_words has TAB-free
fields: each field is the text strictly before a consumed TAB of its
line, so the delimiters never appear inside a field. -/
theorem get_words_fields_tab_free (c : List Char) (ws : List DuolingoWord)
    (h : get_words c = some ws) :
    ∀ w ∈ ws, '\t' ∉ w.word ∧ '\t' ∉ w.word_class ∧ '\t' ∉ w.last_studied := by
  intro w hw
  have haux : get_words_aux (rustLines c) = some ws := h
  obtain ⟨l, _, hpl⟩ := get_words_aux_mem_source (rustLines c) ws haux w hw
  exact parseLine_fields_tab_free l w hpl

/-- C10 witness: the theorem applied to the scenario-1 content and its
first record. -/
theorem get_words_fields_tab_free_witness :
    '\t' ∉ glasWord.word ∧ '\t' ∉ glasWord.word_class ∧ '\t' ∉ glasWord.last_studied :=
  get_words_fields_tab_free scenario1 [glasWord, mannWord] (by decide) glasWord
    (by decide)

/-- C7 counterexample: for the record with fields a, b, c, re-extracting
the rendered report line by the TAB-splitting convention of the line
parser does not reproduce the original field values: the line parser
itself rejects the line (it carries no third TAB), and splitting the
line on TAB yields the labelled segments, not the bare values. -/
theorem display_roundtrip_counterexample :
    parseLine (display ⟨['a'], ['b'], ['c']⟩) ≠ some ⟨['a'], ['b'], ['c']⟩ ∧
    splitOnChar '\t' (display ⟨['a'], ['b'], ['c']⟩) ≠ [['a'], ['b'], ['c']] := by
  decide

/-- C7 (amended): for every record whose three fields are TAB-free (as
holds for every record produced by get_words), splitting the rendered
report line on TAB yields exactly the three labelled segments, and
dropping the fixed labels (6, 6 and 14 characters) reproduces the
original word, word class and last-studied values exactly. -/
theorem display_roundtrip (w : DuolingoWord)
    (h1 : '\t' ∉ w.word) (h2 : '\t' ∉ w.word_class) (h3 : '\t' ∉ w.last_studied) :
    splitOnChar '\t' (display w)
        = ["Word: ".data ++ w.word, "Type: ".data ++ w.word_class,
           "Last Studied: ".data ++ w.last_studied] ∧
      List.drop 6 ("Word: ".data ++ w.word) = w.word ∧
      List.drop 6 ("Type: ".data ++ w.word_class) = w.word_class ∧
      List.drop 14 ("Last Studied: ".data ++ w.last_studied) = w.last_studied := by
  have hsplit1 : "\tType: ".data = '\t' :: "Type: ".data := by decide
  have hsplit2 : "\tLast Studied: ".data = '\t' :: "Last Studied: ".data := by decide
  have hd : display w
      = ("Word: ".data ++ w.word) ++ '\t' ::
          (("Type: ".data ++ w.word_class) ++ '\t' ::
            ("Last Studied: ".data ++ w.last_studied)) := by
    unfold display
    rw [hsplit1, hsplit2]
    simp [List.append_assoc]
  have hw1 : '\t' ∉ "Word: ".data ++ w.word := by
    intro hmem
    rcases List.mem_append.mp hmem with hh | hh
    · exact absurd hh (by decide)
    · exact h1 hh
  have hw2 : '\t' ∉ "Type: ".data ++ w.word_class := by
    intro hmem
    rcases List.mem_append.mp hmem with hh | hh
    · exact absurd hh (by decide)
    · exact h2 hh
  have hw3 : '\t' ∉ "Last Studied: ".data ++ w.last_studied := by
    intro hmem
    rcases List.mem_append.mp hmem with hh | hh
    · exact absurd hh (by decide)
    · exact h3 hh
  refine ⟨?_, ?_, ?_, ?_⟩
  · rw [hd, splitOnChar_append_cons '\t' _ _ hw1, splitOnChar_append_cons '\t' _ _ hw2,
      splitOnChar_of_not_mem '\t' _ hw3]
  · have h6 : ("Word: ".data).length = 6 := by decide
    rw [← h6]
    exact List.drop_left _ _
  · have h6 : ("Type: ".data).length = 6 := by decide
    rw [← h6]
    exact List.drop_left _ _
  · have h14 : ("Last Studied: ".data).length = 14 := by decide
    rw [← h14]
    exact List.drop_left _ _

/-- C7 witness: the amended theorem applied to the record with
single-character TAB-free fields G, N, x. -/
theorem display_roundtrip_witness :
    splitOnChar '\t' (display ⟨['G'], ['N'], ['x']⟩)
        = ["Word: G".data, "Type: N".data, "Last Studied: x".data] ∧
      List.drop 6 "Word: G".data = ['G'] ∧
      List.drop 6 "Type: N".data = ['N'] ∧
      List.drop 14 "Last Studied: x".data = ['x'] :=
  display_roundtrip ⟨['G'], ['N'], ['x']⟩ (by decide) (by decide) (by decide)
